import Mathlib

/-!
# Verification of the biome parser/analyzer core sample

Shallow embedding of the four source files:

* `crates/biome_css_parser/src/syntax/at_rule/color_profile.rs` — the
  `@color-profile` at-rule parser with error recovery;
* `crates/rome_formatter/src/ts/types/typeof_type.rs` — the verbatim
  formatter passthrough for `typeof` types;
* `crates/biome_js_analyze/src/analyzers/complexity/no_for_each.rs` — the
  `noForEach` lint rule;
* `crates/rome_js_analyze/src/semantic_analyzers/js/no_shouty_constants.rs`
  — the `noShoutyConstants` lint rule with its list-repair helper.

Infrastructure these files call but whose code is not part of the sample
(the biome_parser recovery combinators, the generated syntax factory, the
semantic model, the JS syntax types and the formatter element type) is
modelled from the specification; every such definition carries a doc
comment starting with `Modelled from the spec:`.
-/

namespace Biome

/-! ## CSS parser: tokens, tree, diagnostics -/

/-- The CSS syntax kinds that occur in the `@color-profile` grammar slice:
terminal (token) kinds first, then node kinds.  Mirrors the members of
`CssSyntaxKind` used by `color_profile.rs`. -/
inductive CssSyntaxKind where
  | colorProfileKw
  | identTok
  | numberTok
  | lBraceTok
  | rBraceTok
  | semicolonTok
  | otherTok
  | CSS_CUSTOM_IDENTIFIER
  | CSS_DECLARATION_LIST
  | CSS_DECLARATION_LIST_BLOCK
  | CSS_COLOR_PROFILE_AT_RULE
  | CSS_BOGUS_AT_RULE
  | CSS_BOGUS
  | CSS_BOGUS_BLOCK
deriving DecidableEq, Repr

/-- A lexed token: its kind, its full source text (significant text together
with the attached trivia, so that concatenating token texts reproduces the
input), and whether a line break stands in the trivia before it. -/
structure CssToken where
  kind : CssSyntaxKind
  text : String
  precededByLineBreak : Bool
deriving DecidableEq, Repr

/-- The parse diagnostics this grammar slice can emit, named after the
`parse_error` builders passed at the call sites. -/
inductive CssDiagnostic where
  | expectedNonCssWideKeywordIdentifier
  | expectedBlock
  | expectedClosingBrace
deriving DecidableEq, Repr

/-- Parser state: the not-yet-consumed tokens and the diagnostics collected
so far.  `tokens = []` is end of file. -/
structure CssParser where
  tokens : List CssToken
  diagnostics : List CssDiagnostic
deriving DecidableEq, Repr

/-- A green-tree element: a token or a node with its ordered children. -/
inductive CssElement where
  | tok (t : CssToken)
  | node (kind : CssSyntaxKind) (children : List CssElement)

/-- `ParsedSyntax` of biome_parser: a construct is either absent at the
cursor or present as a completed node. -/
inductive ParsedSyn where
  | Absent
  | Present (element : CssElement)

mutual

/-- All tokens of an element, in source order. -/
def elementTokens : CssElement → List CssToken
  | .tok t => [t]
  | .node _ children => elementsTokens children

/-- All tokens of a list of elements, in source order. -/
def elementsTokens : List CssElement → List CssToken
  | [] => []
  | e :: es => elementTokens e ++ elementsTokens es

end

/-- The tokens held by a `ParsedSyn` result (none when absent). -/
def parsedTokens : ParsedSyn → List CssToken
  | .Absent => []
  | .Present e => elementTokens e

/-- The tokens held by a recovery result (none on recovery failure). -/
def recoveredTokens : Option CssElement → List CssToken
  | none => []
  | some e => elementTokens e

/-- Concatenated source text of a token list. -/
def tokensText (ts : List CssToken) : String :=
  ts.foldr (fun t acc => t.text ++ acc) ""

/-! ## CSS parser: recovery protocol -/

/-- A per-construct recovery configuration: the kind of the bogus node that
wraps skipped tokens, the recovery token set, and whether a line break also
stops (and pre-empts) recovery.  Mirrors `ParseRecovery` of biome_parser. -/
structure ParseRecovery where
  nodeKind : CssSyntaxKind
  recoverySet : List CssSyntaxKind
  recoveryOnLineBreak : Bool
deriving DecidableEq, Repr

/-- `ParseRecovery::new`: line-break recovery starts disabled. -/
def ParseRecovery.new (nodeKind : CssSyntaxKind) (recoverySet : List CssSyntaxKind) :
    ParseRecovery :=
  ⟨nodeKind, recoverySet, false⟩

/-- `ParseRecovery::enable_recovery_on_line_break`. -/
def ParseRecovery.enable_recovery_on_line_break (r : ParseRecovery) : ParseRecovery :=
  { r with recoveryOnLineBreak := true }

/-- A token at which recovery stops: a member of the recovery set, or any
token preceded by a line break when the line-break policy is enabled. -/
def isRecoveryPoint (r : ParseRecovery) (t : CssToken) : Bool :=
  r.recoverySet.contains t.kind || (r.recoveryOnLineBreak && t.precededByLineBreak)

/-- The split of a token stream at the first recovery point: the consumed
prefix and the rest. -/
def recoveryConsume (r : ParseRecovery) : List CssToken → List CssToken × List CssToken
  | [] => ([], [])
  | t :: ts =>
    if isRecoveryPoint r t then ([], t :: ts)
    else
      let rest := recoveryConsume r ts
      (t :: rest.1, rest.2)

/-- Modelled from the spec: the recovery protocol (§4.3, step 3) of
biome_parser's `ParseRecovery::recover`, whose code is not in the sample.
On unexpected input it advances one token at a time, accumulating the
skipped tokens as children of a bogus node, until a recovery-set token or
(when enabled) a line break is reached; if the cursor already stands at a
recovery point or at end of file it fails (`none`) without consuming
anything, so the caller observes an absent/err outcome. -/
def ParseRecovery.recover (r : ParseRecovery) (p : CssParser) :
    Option CssElement × CssParser :=
  match recoveryConsume r p.tokens with
  | ([], _) => (none, p)
  | (t :: ts, rest) => (some (.node r.nodeKind ((t :: ts).map .tok)), { p with tokens := rest })

/-- Modelled from the spec: `ParsedSyntax::or_recover` of biome_parser, whose
code is not in the sample.  A present construct passes through unchanged;
an absent one emits the construct's "expected X" diagnostic (§4.3, step 4)
and runs the recovery protocol, whose bogus node (if recovery consumed
anything) stands in for the missing construct. -/
def or_recover (res : ParsedSyn × CssParser) (r : ParseRecovery) (d : CssDiagnostic) :
    Option CssElement × CssParser :=
  match res with
  | (.Present e, p) => (some e, p)
  | (.Absent, p) =>
    r.recover { p with diagnostics := p.diagnostics ++ [d] }

/-! ## CSS parser: the constructs used by the color-profile at-rule -/

/-- The CSS-wide keywords excluded from custom identifiers. -/
def CSS_WIDE_KEYWORDS : List String :=
  ["initial", "inherit", "unset", "revert", "default"]

/-- Modelled from the spec: `parse_custom_identifier` of the CSS parser,
whose code is not in the sample.  Present exactly when the cursor stands at
an identifier token that is not a CSS-wide keyword; it then consumes that
one token into a `CSS_CUSTOM_IDENTIFIER` node.  Otherwise absent, with the
parser untouched (§4.3: a construct matching zero tokens returns absent
without side effects). -/
def parse_custom_identifier (p : CssParser) : ParsedSyn × CssParser :=
  match p.tokens with
  | [] => (.Absent, p)
  | t :: rest =>
    if t.kind = .identTok ∧ t.text ∉ CSS_WIDE_KEYWORDS then
      (.Present (.node .CSS_CUSTOM_IDENTIFIER [.tok t]), { p with tokens := rest })
    else (.Absent, p)

/-- The split of a token stream at the first `}` (everything before it
belongs to the declaration list). -/
def takeDeclarationTokens : List CssToken → List CssToken × List CssToken
  | [] => ([], [])
  | t :: ts =>
    if t.kind = .rBraceTok then ([], t :: ts)
    else
      let rest := takeDeclarationTokens ts
      (t :: rest.1, rest.2)

/-- Modelled from the spec: `parse_declaration_list_block` of the CSS
parser, whose code is not in the sample.  Present exactly when the cursor
stands at `{`; the block then holds the declaration list up to the matching
`}`.  A missing `}` at end of file is a recorded diagnostic, not an abort
(§7: syntactic anomalies never stop analysis). -/
def parse_declaration_list_block (p : CssParser) : ParsedSyn × CssParser :=
  match p.tokens with
  | [] => (.Absent, p)
  | t :: rest =>
    if t.kind = .lBraceTok then
      let split := takeDeclarationTokens rest
      let declarationList := CssElement.node .CSS_DECLARATION_LIST (split.1.map .tok)
      match split.2 with
      | r :: rest2 =>
        (.Present (.node .CSS_DECLARATION_LIST_BLOCK [.tok t, declarationList, .tok r]),
         { p with tokens := rest2 })
      | [] =>
        (.Present (.node .CSS_DECLARATION_LIST_BLOCK [.tok t, declarationList]),
         { tokens := [], diagnostics := p.diagnostics ++ [.expectedClosingBrace] })
    else (.Absent, p)

/-- Modelled from the spec: `parse_or_recover_declaration_list_block` of the
CSS parser, whose code is not in the sample — the block parse with the
block's own independent recovery (§4.3, step 5: a malformed identifier
still allows block parsing to proceed using its own independent recovery). -/
def parse_or_recover_declaration_list_block (p : CssParser) :
    Option CssElement × CssParser :=
  or_recover (parse_declaration_list_block p)
    ((ParseRecovery.new .CSS_BOGUS_BLOCK [.rBraceTok]).enable_recovery_on_line_break)
    .expectedBlock

/-- Whether an element can fill a slot expecting the given kind. -/
def fillsSlot (slot : CssSyntaxKind) : CssElement → Bool
  | .tok t => t.kind = slot
  | .node k _ => k = slot

/-- Greedy slot matching of the generated syntax factories: walk the slots
in order, letting each child fill the first slot it can; children left over
after all slots mean the node does not have its normal shape. -/
def slotsMatch : List CssSyntaxKind → List CssElement → Bool
  | _, [] => true
  | [], _ :: _ => false
  | s :: ss, e :: es =>
    if fillsSlot s e then slotsMatch ss es else slotsMatch ss (e :: es)

/-- The slot shape of a well-formed `CSS_COLOR_PROFILE_AT_RULE` node:
the `color_profile` keyword, the custom-identifier name, the block. -/
def colorProfileSlots : List CssSyntaxKind :=
  [.colorProfileKw, .CSS_CUSTOM_IDENTIFIER, .CSS_DECLARATION_LIST_BLOCK]

/-- Modelled from the spec: `Marker::complete` through the generated syntax
factory, whose code is not in the sample.  Completing a marker finalizes
the buffered children into a node of the requested kind; but a construct
whose children do not fit its normal slot shape — e.g. because a recovery
bogus node stands among them — is finalized as its error-kind node instead
(§4.3, step 5: the enclosing construct is finalized with an error-kind
marker rather than its normal kind). -/
def completeNode (kind : CssSyntaxKind) (children : List CssElement) : CssElement :=
  if kind = .CSS_COLOR_PROFILE_AT_RULE ∧ ¬ slotsMatch colorProfileSlots children then
    .node .CSS_BOGUS_AT_RULE children
  else
    .node kind children

/-! ## CSS parser: the color-profile at-rule (from the source) -/

/-- `COLOR_PROFILE_RECOVERY_SET` (color_profile.rs, line 50): `token_set![T!['{']]`. -/
def COLOR_PROFILE_RECOVERY_SET : List CssSyntaxKind := [.lBraceTok]

/-- `is_color_profile_at_rule` (color_profile.rs, lines 13–16):
`p.at(T![color_profile])`. -/
def is_color_profile_at_rule (p : CssParser) : Bool :=
  match p.tokens with
  | t :: _ => t.kind = .colorProfileKw
  | [] => false

/-- `parse_color_profile_at_rule` (color_profile.rs, lines 18–48). -/
def parse_color_profile_at_rule (p : CssParser) : ParsedSyn × CssParser :=
  if is_color_profile_at_rule p then
    match p.tokens with
    | [] => (.Absent, p)
    | kw :: rest =>
      let afterKw : CssParser := { p with tokens := rest }
      let identOutcome :=
        or_recover (parse_custom_identifier afterKw)
          ((ParseRecovery.new .CSS_BOGUS COLOR_PROFILE_RECOVERY_SET).enable_recovery_on_line_break)
          .expectedNonCssWideKeywordIdentifier
      let kind :=
        if identOutcome.1.isSome then CssSyntaxKind.CSS_COLOR_PROFILE_AT_RULE
        else CssSyntaxKind.CSS_BOGUS_AT_RULE
      let blockOutcome := parse_or_recover_declaration_list_block identOutcome.2
      let children :=
        CssElement.tok kw :: (identOutcome.1.toList ++ blockOutcome.1.toList)
      match blockOutcome.1 with
      | none => (.Present (completeNode .CSS_BOGUS_AT_RULE children), blockOutcome.2)
      | some _ => (.Present (completeNode kind children), blockOutcome.2)
  else (.Absent, p)

/-! ## JS syntax: expressions -/

/-- Modelled from the spec: the slice of the JS expression grammar
(rome_js_syntax, not in the sample) that the two lint rules inspect —
identifier expressions, string literals, static and computed member
expressions, calls, parenthesized expressions and arrow functions, with a
catch-all for every other expression kind. -/
inductive JsExpr where
  | identExpr (name : String)
  | stringLit (innerText : String)
  | staticMember (object : JsExpr) (memberName : String)
  | computedMember (object : JsExpr) (memberProp : JsExpr)
  | callExpr (callee : JsExpr) (args : List JsExpr)
  | parenExpr (inner : JsExpr)
  | arrowFn (param : String) (body : List JsExpr)
  | otherExpr

/-- `omit_parentheses`: the expression with every surrounding layer of
parentheses stripped. -/
def omit_parentheses : JsExpr → JsExpr
  | .parenExpr inner => omit_parentheses inner
  | e => e

/-- `AnyJsMemberExpression::cast_ref`: succeeds exactly on static and
computed member expressions. -/
def asMemberExpr : JsExpr → Option JsExpr
  | .staticMember o m => some (.staticMember o m)
  | .computedMember o pr => some (.computedMember o pr)
  | _ => none

/-- Modelled from the spec: `AnyJsMemberExpression::member_name`
(rome_js_syntax, not in the sample) — the member name of a static member
expression, or the inner text of a computed member access whose member is a
string literal (`els['forEach']`); `none` otherwise. -/
def member_name : JsExpr → Option String
  | .staticMember _ m => some m
  | .computedMember _ pr =>
    match pr with
    | .stringLit s => some s
    | _ => none
  | _ => none

/-! ## noForEach (biome_js_analyze) -/

/-- The query node of `NoForEach`: a `JsCallExpression`, split into its
callee and argument list. -/
structure JsCallExpressionNode where
  callee : JsExpr
  args : List JsExpr

/-- `NoForEach::run` (no_for_each.rs, lines 61–66): signal exactly when the
callee, after omitting parentheses, casts to a member expression whose
member name is `"forEach"`; every failed lookup yields no signal. -/
def NoForEach_run (node : JsCallExpressionNode) : Option Unit := do
  let memberExpression ← asMemberExpr (omit_parentheses node.callee)
  let name ← member_name memberExpression
  if name = "forEach" then some () else none

mutual

/-- Every call-expression node inside an expression, in source order. -/
def callExpressionsInExpr : JsExpr → List JsCallExpressionNode
  | .identExpr _ => []
  | .stringLit _ => []
  | .staticMember o _ => callExpressionsInExpr o
  | .computedMember o pr => callExpressionsInExpr o ++ callExpressionsInExpr pr
  | .callExpr c as => ⟨c, as⟩ :: (callExpressionsInExpr c ++ callExpressionsInExprList as)
  | .parenExpr i => callExpressionsInExpr i
  | .arrowFn _ b => callExpressionsInExprList b
  | .otherExpr => []

/-- Every call-expression node inside a list of expressions. -/
def callExpressionsInExprList : List JsExpr → List JsCallExpressionNode
  | [] => []
  | e :: es => callExpressionsInExpr e ++ callExpressionsInExprList es

end

/-! ## JS syntax: variable declarations -/

/-- Modelled from the spec: `JsAnyBindingPattern` (rome_js_syntax, not in
the sample), reduced to the distinction the rules draw — an identifier
binding with its trimmed text, or any other binding pattern. -/
inductive JsAnyBindingPat where
  | identifierBinding (name : String)
  | otherBindingPat
deriving DecidableEq, Repr

/-- Modelled from the spec: the initializer expression of a declarator
(rome_js_syntax, not in the sample), reduced to the distinction the rules
draw — a string literal with its inner text, an identifier reference (a
use the semantic model can see), or any other expression. -/
inductive JsInitializerExpr where
  | stringLitInit (innerText : String)
  | identRefInit (name : String)
  | otherInit
deriving DecidableEq, Repr

/-- A `JsVariableDeclarator`: its binding (`id().ok()` — `none` for a
missing id) and its initializer expression (`initializer()?.expression().ok()`
— the optional clause and the fallible expression collapsed into one
option). -/
structure JsVariableDeclarator where
  id : Option JsAnyBindingPat
  initializer : Option JsInitializerExpr
deriving DecidableEq, Repr

/-- One element of the separated declarator list: the declarator and
whether a trailing comma separator follows it. -/
structure DeclaratorElement where
  declarator : JsVariableDeclarator
  trailingComma : Bool
deriving DecidableEq, Repr

/-- The keyword of a variable declaration. -/
inductive JsVariableKind where
  | constKind
  | letKind
  | varKind
deriving DecidableEq, Repr

/-- A `JsVariableDeclaration`: its keyword and its separated declarator
list. -/
structure JsVariableDeclaration where
  variableKind : JsVariableKind
  declaratorList : List DeclaratorElement
deriving DecidableEq, Repr

/-- `JsVariableDeclaration::is_const`. -/
def JsVariableDeclaration.is_const (d : JsVariableDeclaration) : Bool :=
  d.variableKind = .constKind

/-- A `JsVariableStatement` wrapping one declaration. -/
structure JsVariableStatement where
  declaration : JsVariableDeclaration
deriving DecidableEq, Repr

/-! ## noShoutyConstants (rome_js_analyze): literal check and list repair -/

/-- `is_id_and_string_literal_inner_text_equal` (no_shouty_constants.rs,
lines 36–54): the identifier binding and the string literal of a
declarator of the shape `a = "a"`; `none` when the id is not an identifier
binding, the initializer is not a string literal, or the texts differ.
The pair is returned as (binding text, literal inner text). -/
def is_id_and_string_literal_inner_text_equal (declarator : JsVariableDeclarator) :
    Option (String × String) := do
  let idPat ← declarator.id
  match idPat with
  | .identifierBinding idText =>
    match declarator.initializer with
    | some (.stringLitInit literalText) =>
      if idText = literalText then some (idText, literalText) else none
    | _ => none
  | .otherBindingPat => none

/-- The primitive edits of a batch mutation that the rule emits: remove the
whole statement, remove one declarator node, remove the separator token of
the element at an index, or replace the reference at a source position by
the literal. -/
inductive JsBatchEdit where
  | removeStatementEdit
  | removeDeclaratorEdit (declarator : JsVariableDeclarator)
  | removeSeparatorEdit (index : Nat)
  | replaceReferenceEdit (position : Nat) (literalText : String)
deriving DecidableEq, Repr

/-- The `for element in elements.by_ref()` loop of `remove_declarator`
(no_shouty_constants.rs, lines 74–87): walk the elements keeping the
previous element's index; at the first element holding the declarator, emit
its removal and the removal of its own trailing comma (if any) and break.
Returns (the edits, the previous element's index at the break, how many
elements remain after the break). -/
def removeDeclaratorLoop (declarator : JsVariableDeclarator) :
    Nat → Option Nat → List DeclaratorElement →
      List JsBatchEdit × Option Nat × Nat
  | _, prev, [] => ([], prev, 0)
  | i, prev, e :: es =>
    if e.declarator = declarator then
      (.removeDeclaratorEdit e.declarator ::
        (if e.trailingComma then [.removeSeparatorEdit i] else []),
       prev, es.length)
    else removeDeclaratorLoop declarator (i + 1) (some i) es

/-- `remove_declarator` (no_shouty_constants.rs, lines 56–101).  The
embedding passes the enclosing variable statement explicitly, so the
source's parent lookups (lines 63, 64 and 67) are always present here; the
returned option mirrors the source's `Option<()>` shape.  A sole declarator
removes the whole statement; otherwise the loop removes the declarator and
its own trailing comma, and when no element follows it (`is_last`), the
previous element's trailing comma is removed as well. -/
def remove_declarator (stmt : JsVariableStatement) (declarator : JsVariableDeclarator) :
    Option (List JsBatchEdit) :=
  let list := stmt.declaration.declaratorList
  if list.length = 1 then
    some [.removeStatementEdit]
  else
    let loopOut := removeDeclaratorLoop declarator 0 none list
    let is_last := loopOut.2.2 = 0
    let lastCommaEdits :=
      if is_last then
        match loopOut.2.1 with
        | some j =>
          match list[j]? with
          | some prevElement =>
            if prevElement.trailingComma then [JsBatchEdit.removeSeparatorEdit j] else []
          | none => []
        | none => []
      else []
    some (loopOut.1 ++ lastCommaEdits)

/-- Applying the list-level edits to the declarator list: removed
declarators disappear, and an element whose separator is removed keeps its
declarator but loses its trailing comma. -/
def applyListEdits (edits : List JsBatchEdit) :
    Nat → List DeclaratorElement → List DeclaratorElement
  | _, [] => []
  | i, e :: es =>
    let rest := applyListEdits edits (i + 1) es
    if JsBatchEdit.removeDeclaratorEdit e.declarator ∈ edits then rest
    else if JsBatchEdit.removeSeparatorEdit i ∈ edits then
      { e with trailingComma := false } :: rest
    else e :: rest

/-- Applying a batch to the variable statement: `none` when the statement
itself is removed, otherwise the statement with the edited declarator
list. -/
def applyDeclaratorEdits (edits : List JsBatchEdit) (stmt : JsVariableStatement) :
    Option JsVariableStatement :=
  if JsBatchEdit.removeStatementEdit ∈ edits then none
  else
    some { declaration :=
      { stmt.declaration with
        declaratorList := applyListEdits edits 0 stmt.declaration.declaratorList } }

/-- A syntactically valid separated declarator list: nonempty, every
element but the last carries a trailing comma, the last carries none. -/
def isValidDeclaratorList : List DeclaratorElement → Bool
  | [] => false
  | [e] => !e.trailingComma
  | e :: f :: rest => e.trailingComma && isValidDeclaratorList (f :: rest)

/-! ## JS statements and the semantic model -/

/-- Modelled from the spec: the statement forms of the sample programs
(rome_js_syntax, not in the sample) — expression statements, variable
statements, `for (const x of e) { ... }`, and shorthand named exports
(whose names are references that do not sit inside an identifier
expression). -/
inductive JsStatement where
  | exprStmt (e : JsExpr)
  | varStmt (stmt : JsVariableStatement)
  | forOfConst (bindingName : String) (iterable : JsExpr) (body : List JsStatement)
  | exportNamedShorthand (exportedNames : List String)

mutual

/-- Every call-expression node inside a statement, in source order. -/
def callExpressionsInStmt : JsStatement → List JsCallExpressionNode
  | .exprStmt e => callExpressionsInExpr e
  | .varStmt _ => []
  | .forOfConst _ it body => callExpressionsInExpr it ++ callExpressionsInStmtList body
  | .exportNamedShorthand _ => []

/-- Every call-expression node inside a list of statements. -/
def callExpressionsInStmtList : List JsStatement → List JsCallExpressionNode
  | [] => []
  | s :: ss => callExpressionsInStmt s ++ callExpressionsInStmtList ss

end

/-- The signals of `NoForEach` over a program: the rule engine visits every
call expression exactly once and counts the matches of `run`. -/
def noForEachSignalCount (program : List JsStatement) : Nat :=
  (callExpressionsInStmtList program).countP (fun c => (NoForEach_run c).isSome)

/-- The syntactic context a reference identifier sits in: directly under a
`JsIdentifierExpression`, or under an export specifier. -/
inductive RefParentKind where
  | identifierExpressionParent
  | exportSpecifierParent
deriving DecidableEq, Repr

/-- One identifier occurrence in reference position: its text and the kind
of its parent node (`none` would be a detached node with no parent). -/
structure Occurrence where
  occName : String
  occParent : Option RefParentKind
deriving DecidableEq, Repr

/-- A reference of the semantic model: the source-order position of the
occurrence and the kind of the parent node of `reference.node()`. -/
structure Reference where
  position : Nat
  parentKind : Option RefParentKind
deriving DecidableEq, Repr

mutual

/-- The identifier occurrences in reference position inside an expression,
in source order.  Member names of static member accesses are not
references; identifier expressions are. -/
def exprOccurrences : JsExpr → List Occurrence
  | .identExpr n => [⟨n, some .identifierExpressionParent⟩]
  | .stringLit _ => []
  | .staticMember o _ => exprOccurrences o
  | .computedMember o pr => exprOccurrences o ++ exprOccurrences pr
  | .callExpr c as => exprOccurrences c ++ exprListOccurrences as
  | .parenExpr i => exprOccurrences i
  | .arrowFn _ b => exprListOccurrences b
  | .otherExpr => []

/-- The reference occurrences inside a list of expressions. -/
def exprListOccurrences : List JsExpr → List Occurrence
  | [] => []
  | e :: es => exprOccurrences e ++ exprListOccurrences es

end

/-- The reference occurrences inside a declarator initializer. -/
def initOccurrences : Option JsInitializerExpr → List Occurrence
  | some (.identRefInit n) => [⟨n, some .identifierExpressionParent⟩]
  | _ => []

/-- The reference occurrences inside a declarator list: only the
initializers — the binding ids are declarations, not references. -/
def declaratorListOccurrences : List DeclaratorElement → List Occurrence
  | [] => []
  | e :: es => initOccurrences e.declarator.initializer ++ declaratorListOccurrences es

mutual

/-- The reference occurrences inside a statement, in source order. -/
def stmtOccurrences : JsStatement → List Occurrence
  | .exprStmt e => exprOccurrences e
  | .varStmt vs => declaratorListOccurrences vs.declaration.declaratorList
  | .forOfConst _ it body => exprOccurrences it ++ stmtListOccurrences body
  | .exportNamedShorthand ns => ns.map (fun n => ⟨n, some .exportSpecifierParent⟩)

/-- The reference occurrences inside a list of statements. -/
def stmtListOccurrences : List JsStatement → List Occurrence
  | [] => []
  | s :: ss => stmtOccurrences s ++ stmtListOccurrences ss

end

/-- The references among a run of occurrences whose text matches the
binding, positions counted from `i`. -/
def collectRefs (bindingName : String) : Nat → List Occurrence → List Reference
  | _, [] => []
  | i, o :: os =>
    (if o.occName = bindingName then [⟨i, o.occParent⟩] else []) ++
      collectRefs bindingName (i + 1) os

/-- Modelled from the spec: `all_references` of the semantic model (§4.4),
whose code is not in the sample.  Built by a single pass over the finished
tree: it collects, in source order, every identifier occurrence in
reference position whose text matches the binding and which is not itself
another declaration.  The sample programs bind only at the top level, so
one scope suffices. -/
def all_references (bindingName : String) (program : List JsStatement) : List Reference :=
  collectRefs bindingName 0 (stmtListOccurrences program)

/-! ## noShoutyConstants: run, diagnostic, action -/

/-- `State` of `NoShoutyConstants` (no_shouty_constants.rs, lines 103–106):
the matched string literal's inner text and the binding's references. -/
structure ShoutyState where
  literalText : String
  references : List Reference
deriving DecidableEq, Repr

/-- `NoShoutyConstants::run` (no_shouty_constants.rs, lines 115–132).  The
query declarator is addressed by its statement index and its index in the
declarator list; an index that does not land on a declarator inside a
variable statement is the source's failed `parent::<…>()?` lookup. -/
def NoShoutyConstants_run (program : List JsStatement) (si di : Nat) :
    Option ShoutyState := do
  let stmt ← program[si]?
  match stmt with
  | .varStmt vs => do
    let element ← vs.declaration.declaratorList[di]?
    if vs.declaration.is_const then
      match is_id_and_string_literal_inner_text_equal element.declarator with
      | some (binding, literalText) =>
        some ⟨literalText, all_references binding program⟩
      | none => none
    else none
  | _ => none

/-- The diagnostic of `NoShoutyConstants`, reduced to the data the claims
inspect: one secondary range per reference. -/
structure RuleDiag where
  secondaryCount : Nat
deriving DecidableEq, Repr

/-- `NoShoutyConstants::diagnostic` (no_shouty_constants.rs, lines
134–156): always produced, with one "Used here." secondary per collected
reference. -/
def NoShoutyConstants_diagnostic (state : ShoutyState) : Option RuleDiag :=
  some ⟨state.references.length⟩

/-- A rule action: the batch mutation it proposes. -/
structure JsRuleAction where
  editList : List JsBatchEdit
deriving DecidableEq, Repr

/-- The body of the reference loop of `NoShoutyConstants::action`
(no_shouty_constants.rs, lines 166–176): `reference.node().parent()?` must
exist and cast to `JsIdentifierExpression`, and the replacement edit is
emitted; otherwise the whole action aborts. -/
def referenceReplacementEdit (literalText : String) (r : Reference) : Option JsBatchEdit :=
  match r.parentKind with
  | some .identifierExpressionParent => some (.replaceReferenceEdit r.position literalText)
  | _ => none

/-- The `for reference in state.references.iter()` loop of
`NoShoutyConstants::action`: each reference must yield its replacement
edit, and any failure aborts the whole loop. -/
def collectReplacementEdits (literalText : String) :
    List Reference → Option (List JsBatchEdit)
  | [] => some []
  | r :: rs => do
    let e ← referenceReplacementEdit literalText r
    let rest ← collectReplacementEdits literalText rs
    some (e :: rest)

/-- `NoShoutyConstants::action` (no_shouty_constants.rs, lines 158–184).
The result of `remove_declarator` is discarded (source line 164 ignores
it; when it bails it has added no edit, hence `getD []`), then every
reference must yield its replacement edit or the action returns `none`. -/
def NoShoutyConstants_action (stmt : JsVariableStatement)
    (declarator : JsVariableDeclarator) (state : ShoutyState) :
    Option JsRuleAction := do
  let removalEdits := (remove_declarator stmt declarator).getD []
  let replacementEdits ← collectReplacementEdits state.literalText state.references
  some ⟨removalEdits ++ replacementEdits⟩

/-! ## rome_formatter: the typeof-type passthrough -/

/-- The formatter's element type, reduced to the constructors the sample
distinguishes: the verbatim element and the ordinary layout elements. -/
inductive FormatElement where
  | verbatim (text : String)
  | token (text : String)
  | space
  | hardLine
deriving DecidableEq, Repr

/-- The formatter's error type. -/
inductive FormatError where
  | formatCapabilityError
deriving DecidableEq, Repr

/-- A `TsTypeofType` node, carried by its full source text (the node's
syntax with all trivia). -/
structure TsTypeofType where
  syntaxText : String
deriving DecidableEq, Repr

/-- Modelled from the spec: `Formatter::format_verbatim` (rome_formatter,
not in the sample) — the verbatim renderer reproduces the node's original
text exactly, used as the formatter fallback for constructs not yet
specially handled (§6). -/
def format_verbatim (nodeText : String) : FormatElement :=
  .verbatim nodeText

/-- `ToFormatElement for TsTypeofType` (typeof_type.rs, lines 3–7):
`Ok(formatter.format_verbatim(self.syntax()))`. -/
def to_format_element (n : TsTypeofType) : Except FormatError FormatElement :=
  .ok (format_verbatim n.syntaxText)

/-- The text a format element prints. -/
def formatElementText : FormatElement → String
  | .verbatim t => t
  | .token t => t
  | .space => " "
  | .hardLine => "\n"

/-! ## Concrete example inputs -/

/-- The `@color-profile` keyword token of `@color-profile 123 { }` (its
trailing space attached as trivia). -/
def cpKwTok : CssToken := ⟨.colorProfileKw, "@color-profile ", false⟩

/-- The invalid `123` token of `@color-profile 123 { }`. -/
def num123Tok : CssToken := ⟨.numberTok, "123 ", false⟩

/-- The `{` token of `@color-profile 123 { }`. -/
def openBraceTok : CssToken := ⟨.lBraceTok, "\x7b ", false⟩

/-- The `}` token of `@color-profile 123 { }`. -/
def closeBraceTok : CssToken := ⟨.rBraceTok, "\x7d", false⟩

/-- The lexed input `@color-profile 123 { }`, no diagnostics yet. -/
def colorProfileErrorInput : CssParser :=
  ⟨[cpKwTok, num123Tok, openBraceTok, closeBraceTok], []⟩

/-- A parser whose cursor does not stand at `color_profile`. -/
def notColorProfileInput : CssParser := ⟨[⟨.identTok, "x", false⟩], []⟩

/-- The program `els.forEach(el => { el })`. -/
def forEachProgram : List JsStatement :=
  [.exprStmt (.callExpr (.staticMember (.identExpr "els") "forEach")
    [.arrowFn "el" [.identExpr "el"]])]

/-- The program `els['forEach'](el => { el })`. -/
def forEachComputedProgram : List JsStatement :=
  [.exprStmt (.callExpr (.computedMember (.identExpr "els") (.stringLit "forEach"))
    [.arrowFn "el" [.identExpr "el"]])]

/-- The program `for (const el of els) { el }`. -/
def forOfProgram : List JsStatement :=
  [.forOfConst "el" (.identExpr "els") [.exprStmt (.identExpr "el")]]

/-- The declarator `FOO = "FOO"`. -/
def fooDeclarator : JsVariableDeclarator :=
  ⟨some (.identifierBinding "FOO"), some (.stringLitInit "FOO")⟩

/-- The declarator `BAR = 1` (a non-string initializer). -/
def barDeclarator : JsVariableDeclarator :=
  ⟨some (.identifierBinding "BAR"), some .otherInit⟩

/-- The statement `const FOO = "FOO";`. -/
def soleConstStatement : JsVariableStatement :=
  ⟨⟨.constKind, [⟨fooDeclarator, false⟩]⟩⟩

/-- The statement `const FOO = "FOO", BAR = 1;` — `FOO` is not last. -/
def fooFirstStatement : JsVariableStatement :=
  ⟨⟨.constKind, [⟨fooDeclarator, true⟩, ⟨barDeclarator, false⟩]⟩⟩

/-- The statement `const BAR = 1, FOO = "FOO";` — `FOO` is last. -/
def fooLastStatement : JsVariableStatement :=
  ⟨⟨.constKind, [⟨barDeclarator, true⟩, ⟨fooDeclarator, false⟩]⟩⟩

/-- The program `const FOO = "FOO"; console.log(FOO); f(FOO);`. -/
def shoutyProgram : List JsStatement :=
  [.varStmt soleConstStatement,
   .exprStmt (.callExpr (.staticMember (.identExpr "console") "log") [.identExpr "FOO"]),
   .exprStmt (.callExpr (.identExpr "f") [.identExpr "FOO"])]

/-! ## Helper lemmas -/

theorem recoveryConsume_append (r : ParseRecovery) (ts : List CssToken) :
    (recoveryConsume r ts).1 ++ (recoveryConsume r ts).2 = ts := by
  induction ts with
  | nil => rfl
  | cons t ts ih =>
    by_cases h : isRecoveryPoint r t
    · simp [recoveryConsume, h]
    · simp [recoveryConsume, h, ih]

theorem asMemberExpr_eq_self (e m : JsExpr) (h : asMemberExpr e = some m) : m = e := by
  cases e <;> simp [asMemberExpr] at h <;> exact h.symm

theorem asMemberExpr_none_member_name (e : JsExpr) (h : asMemberExpr e = none) :
    member_name e = none := by
  cases e <;> simp [asMemberExpr, member_name] at h ⊢

theorem noForEach_run_isSome_iff (node : JsCallExpressionNode) :
    (NoForEach_run node).isSome = true ↔
      member_name (omit_parentheses node.callee) = some "forEach" := by
  unfold NoForEach_run
  rcases hm : asMemberExpr (omit_parentheses node.callee) with _ | m
  · simp [hm, asMemberExpr_none_member_name _ hm]
  · have hme := asMemberExpr_eq_self _ _ hm
    subst hme
    rcases hn : member_name (omit_parentheses node.callee) with _ | s
    · simp [hm, hn]
    · by_cases hs : s = "forEach"
      · subst hs; simp [hm, hn]
      · simp [hm, hn, hs]

theorem collectRefs_lower (bindingName : String) :
    ∀ (os : List Occurrence) (i : Nat) (r : Reference),
      r ∈ collectRefs bindingName i os → i ≤ r.position := by
  intro os
  induction os with
  | nil =>
    intro i r hr
    simp [collectRefs] at hr
  | cons o os ih =>
    intro i r hr
    by_cases h : o.occName = bindingName
    · simp only [collectRefs, h, if_pos, List.singleton_append] at hr
      rcases List.mem_cons.mp hr with rfl | hr2
      · exact le_refl _
      · exact le_of_lt (lt_of_lt_of_le (Nat.lt_succ_self i) (ih (i + 1) r hr2))
    · simp only [collectRefs, h, if_neg, not_false_iff, List.nil_append] at hr
      exact le_of_lt (lt_of_lt_of_le (Nat.lt_succ_self i) (ih (i + 1) r hr))

theorem collectRefs_chain (bindingName : String) :
    ∀ (os : List Occurrence) (i : Nat),
      List.Chain' (fun a b => a.position < b.position) (collectRefs bindingName i os) := by
  intro os
  induction os with
  | nil =>
    intro i
    simp [collectRefs]
  | cons o os ih =>
    intro i
    by_cases h : o.occName = bindingName
    · simp only [collectRefs, h, if_pos, List.singleton_append]
      rw [List.chain'_cons']
      refine ⟨?_, ih (i + 1)⟩
      intro b hb
      have hmem : b ∈ collectRefs bindingName (i + 1) os := List.mem_of_mem_head? hb
      exact lt_of_lt_of_le (Nat.lt_succ_self i) (collectRefs_lower bindingName os (i + 1) b hmem)
    · simp only [collectRefs, h, if_neg, not_false_iff, List.nil_append]
      exact ih (i + 1)

theorem collectReplacementEdits_none_iff (literalText : String) (refs : List Reference) :
    collectReplacementEdits literalText refs = none ↔
      ∃ r ∈ refs, referenceReplacementEdit literalText r = none := by
  induction refs with
  | nil => simp [collectReplacementEdits]
  | cons r rs ih =>
    constructor
    · intro hx
      rcases h : referenceReplacementEdit literalText r with _ | e
      · exact ⟨r, List.mem_cons_self r rs, h⟩
      · rcases h2 : collectReplacementEdits literalText rs with _ | rest
        · obtain ⟨x, hx2, hn⟩ := ih.mp h2
          exact ⟨x, List.mem_cons_of_mem r hx2, hn⟩
        · simp only [collectReplacementEdits, h, h2, Option.bind_eq_bind,
            Option.bind_some] at hx
          exact Option.noConfusion hx
    · rintro ⟨x, hx, hnone⟩
      rcases List.mem_cons.mp hx with rfl | hx2
      · simp only [collectReplacementEdits, hnone, Option.bind_eq_bind]
        rfl
      · rcases h : referenceReplacementEdit literalText r with _ | e
        · simp only [collectReplacementEdits, h, Option.bind_eq_bind]
          rfl
        · have hrs : collectReplacementEdits literalText rs = none := ih.mpr ⟨x, hx2, hnone⟩
          simp only [collectReplacementEdits, h, hrs, Option.bind_eq_bind]
          rfl

theorem referenceReplacementEdit_none_iff (literalText : String) (r : Reference) :
    referenceReplacementEdit literalText r = none ↔
      r.parentKind ≠ some RefParentKind.identifierExpressionParent := by
  rcases r with ⟨pos, _ | pk⟩
  · simp [referenceReplacementEdit]
  · cases pk <;> simp [referenceReplacementEdit]

theorem takeDeclarationTokens_append (ts : List CssToken) :
    (takeDeclarationTokens ts).1 ++ (takeDeclarationTokens ts).2 = ts := by
  induction ts with
  | nil => rfl
  | cons t ts ih =>
    by_cases h : t.kind = .rBraceTok
    · simp [takeDeclarationTokens, h]
    · simp [takeDeclarationTokens, h, ih]

theorem elementsTokens_map_tok (ts : List CssToken) :
    elementsTokens (ts.map .tok) = ts := by
  induction ts with
  | nil => simp [elementsTokens]
  | cons t ts ih => simp [elementsTokens, elementTokens, ih]

theorem elementsTokens_append (a b : List CssElement) :
    elementsTokens (a ++ b) = elementsTokens a ++ elementsTokens b := by
  induction a with
  | nil => simp [elementsTokens]
  | cons e es ih => simp [elementsTokens, ih]

theorem elementsTokens_toList (o : Option CssElement) :
    elementsTokens o.toList = recoveredTokens o := by
  cases o with
  | none => simp [elementsTokens, recoveredTokens]
  | some e => simp [elementsTokens, elementTokens, recoveredTokens]

theorem elementTokens_completeNode (kind : CssSyntaxKind) (children : List CssElement) :
    elementTokens (completeNode kind children) = elementsTokens children := by
  unfold completeNode
  split <;> simp [elementTokens]

theorem parse_custom_identifier_tokens (p : CssParser) :
    parsedTokens (parse_custom_identifier p).1 ++ (parse_custom_identifier p).2.tokens
      = p.tokens := by
  unfold parse_custom_identifier
  rcases htok : p.tokens with _ | ⟨t, rest⟩
  · simp [parsedTokens, htok]
  · by_cases h : t.kind = CssSyntaxKind.identTok ∧ t.text ∉ CSS_WIDE_KEYWORDS
    · simp [h, parsedTokens, elementTokens, elementsTokens]
    · simp [h, parsedTokens, htok]

theorem recover_tokens (r : ParseRecovery) (p : CssParser) :
    recoveredTokens (r.recover p).1 ++ (r.recover p).2.tokens = p.tokens := by
  have happ := recoveryConsume_append r p.tokens
  unfold ParseRecovery.recover
  rcases hc : recoveryConsume r p.tokens with ⟨c, rest⟩
  rw [hc] at happ
  cases c with
  | nil => simp [recoveredTokens, happ]
  | cons t ts =>
    simpa [recoveredTokens, elementTokens, elementsTokens, elementsTokens_map_tok] using happ

theorem or_recover_tokens (res : ParsedSyn × CssParser) (r : ParseRecovery)
    (d : CssDiagnostic) :
    recoveredTokens (or_recover res r d).1 ++ (or_recover res r d).2.tokens =
      parsedTokens res.1 ++ res.2.tokens := by
  rcases res with ⟨ps, p⟩
  cases ps with
  | Present e => simp [or_recover, recoveredTokens, parsedTokens]
  | Absent =>
    simp only [or_recover, parsedTokens, List.nil_append]
    exact recover_tokens r _

theorem parse_declaration_list_block_tokens (p : CssParser) :
    parsedTokens (parse_declaration_list_block p).1 ++
      (parse_declaration_list_block p).2.tokens = p.tokens := by
  unfold parse_declaration_list_block
  rcases htok : p.tokens with _ | ⟨t, rest⟩
  · simp [parsedTokens, htok]
  · by_cases h : t.kind = CssSyntaxKind.lBraceTok
    · have happ := takeDeclarationTokens_append rest
      rcases hc : takeDeclarationTokens rest with ⟨declToks, after⟩
      rw [hc] at happ
      cases after with
      | nil =>
        simp [h, hc, parsedTokens, elementTokens, elementsTokens,
          elementsTokens_map_tok, htok]
        simpa using happ
      | cons rb rest2 =>
        simp only [h, hc, parsedTokens, htok]
        have happ2 : declToks ++ rb :: rest2 = rest := by simpa using happ
        rw [← happ2]
        simp [elementTokens, elementsTokens, elementsTokens_map_tok]
    · simp [h, parsedTokens, htok]

theorem parse_or_recover_block_tokens (p : CssParser) :
    recoveredTokens (parse_or_recover_declaration_list_block p).1 ++
      (parse_or_recover_declaration_list_block p).2.tokens = p.tokens := by
  unfold parse_or_recover_declaration_list_block
  rw [or_recover_tokens]
  exact parse_declaration_list_block_tokens p

theorem recoveredTokens_some (e : CssElement) :
    recoveredTokens (some e) = elementTokens e := rfl

theorem tokensText_append (a b : List CssToken) :
    tokensText (a ++ b) = tokensText a ++ tokensText b := by
  induction a with
  | nil => simp [tokensText]
  | cons t ts ih =>
    have h1 : tokensText ((t :: ts) ++ b) = t.text ++ tokensText (ts ++ b) := rfl
    have h2 : tokensText (t :: ts) = t.text ++ tokensText ts := rfl
    rw [h1, h2, ih, String.append_assoc]

theorem isValidDeclaratorList_cons (x : DeclaratorElement) (t : List DeclaratorElement)
    (ht : t ≠ []) :
    isValidDeclaratorList (x :: t) = (x.trailingComma && isValidDeclaratorList t) := by
  cases t with
  | nil => exact absurd rfl ht
  | cons f rest => rfl

theorem valid_comma_of_not_last (l : List DeclaratorElement)
    (hv : isValidDeclaratorList l = true) :
    ∀ j e, l[j]? = some e → j + 1 < l.length → e.trailingComma = true := by
  induction l with
  | nil => intro j e hj; simp at hj
  | cons x t ih =>
    intro j e hj hlt
    cases t with
    | nil => simp at hlt
    | cons f rest =>
      rw [isValidDeclaratorList_cons x (f :: rest) (by simp)] at hv
      have hx := (Bool.and_eq_true _ _).mp hv
      cases j with
      | zero =>
        simp at hj
        rw [← hj]; exact hx.1
      | succ j =>
        simp only [List.getElem?_cons_succ] at hj
        exact ih hx.2 j e hj (by simpa using hlt)

theorem valid_last_no_comma (l : List DeclaratorElement)
    (hv : isValidDeclaratorList l = true) :
    ∀ e, l[l.length - 1]? = some e → e.trailingComma = false := by
  induction l with
  | nil => intro e he; simp at he
  | cons x t ih =>
    intro e he
    cases t with
    | nil =>
      simp at he
      simp only [isValidDeclaratorList] at hv
      rw [← he]
      simpa using hv
    | cons f rest =>
      rw [isValidDeclaratorList_cons x (f :: rest) (by simp)] at hv
      have hx := (Bool.and_eq_true _ _).mp hv
      have hlen : (x :: f :: rest).length - 1 = ((f :: rest).length - 1) + 1 := by
        simp
      rw [hlen, List.getElem?_cons_succ] at he
      exact ih hx.2 e he

theorem valid_remove_middle (e : DeclaratorElement) :
    ∀ (xs ys : List DeclaratorElement), ys ≠ [] →
      isValidDeclaratorList (xs ++ e :: ys) = true →
      isValidDeclaratorList (xs ++ ys) = true := by
  intro xs
  induction xs with
  | nil =>
    intro ys hys hv
    rw [List.nil_append] at hv ⊢
    rw [isValidDeclaratorList_cons e ys hys] at hv
    exact ((Bool.and_eq_true _ _).mp hv).2
  | cons x xs ih =>
    intro ys hys hv
    rw [List.cons_append] at hv ⊢
    have hne : xs ++ e :: ys ≠ [] := by simp
    have hne2 : xs ++ ys ≠ [] := by
      intro habs
      rcases List.append_eq_nil.mp habs with ⟨_, h2⟩
      exact hys h2
    rw [isValidDeclaratorList_cons x _ hne] at hv
    rw [isValidDeclaratorList_cons x _ hne2]
    have hx := (Bool.and_eq_true _ _).mp hv
    rw [hx.1, ih ys hys hx.2]
    rfl

theorem valid_remove_last (f e : DeclaratorElement) :
    ∀ xs : List DeclaratorElement,
      isValidDeclaratorList (xs ++ [f, e]) = true →
      isValidDeclaratorList (xs ++ [{ f with trailingComma := false }]) = true := by
  intro xs
  induction xs with
  | nil =>
    intro hv
    rfl
  | cons x xs ih =>
    intro hv
    rw [List.cons_append] at hv ⊢
    have hne : xs ++ [f, e] ≠ [] := by simp
    have hne2 : xs ++ [{ f with trailingComma := false }] ≠ [] := by simp
    rw [isValidDeclaratorList_cons x _ hne] at hv
    rw [isValidDeclaratorList_cons x _ hne2]
    have hx := (Bool.and_eq_true _ _).mp hv
    rw [hx.1, ih hx.2]
    rfl

theorem removeDeclaratorLoop_spec (d : JsVariableDeclarator) :
    ∀ (l : List DeclaratorElement) (i0 : Nat) (prev0 : Option Nat) (k : Nat)
      (e : DeclaratorElement),
      l[k]? = some e → e.declarator = d →
      (∀ j ej, j < k → l[j]? = some ej → ej.declarator ≠ d) →
      removeDeclaratorLoop d i0 prev0 l =
        (.removeDeclaratorEdit d ::
          (if e.trailingComma then [.removeSeparatorEdit (i0 + k)] else []),
         (if k = 0 then prev0 else some (i0 + k - 1)),
         l.length - k - 1) := by
  intro l
  induction l with
  | nil =>
    intro i0 prev0 k e hk
    simp at hk
  | cons a t ih =>
    intro i0 prev0 k e hk hed hfirst
    cases k with
    | zero =>
      simp only [List.getElem?_cons_zero, Option.some_inj] at hk
      subst hk
      simp [removeDeclaratorLoop, hed]
    | succ k =>
      have ha : a.declarator ≠ d :=
        hfirst 0 a (Nat.succ_pos k) (by simp)
      simp only [List.getElem?_cons_succ] at hk
      have hfirst2 : ∀ j ej, j < k → t[j]? = some ej → ej.declarator ≠ d := by
        intro j ej hj hje
        exact hfirst (j + 1) ej (Nat.succ_lt_succ hj) (by simpa using hje)
      rw [removeDeclaratorLoop]
      rw [if_neg ha]
      rw [ih (i0 + 1) (some i0) k e hk hed hfirst2]
      simp only [Prod.mk.injEq]
      refine ⟨?_, ?_, ?_⟩
      · have h1 : i0 + 1 + k = i0 + (k + 1) := by omega
        rw [h1]
      · by_cases hk0 : k = 0
        · subst hk0
          simp
        · rw [if_neg hk0, if_neg (Nat.succ_ne_zero k)]
          congr 1
          omega
      · simp only [List.length_cons]
        omega

theorem applyListEdits_append (edits : List JsBatchEdit) :
    ∀ (xs ys : List DeclaratorElement) (i0 : Nat),
      applyListEdits edits i0 (xs ++ ys) =
        applyListEdits edits i0 xs ++ applyListEdits edits (i0 + xs.length) ys := by
  intro xs
  induction xs with
  | nil => intro ys i0; simp [applyListEdits]
  | cons x xs ih =>
    intro ys i0
    rw [List.cons_append, applyListEdits, applyListEdits]
    rw [ih ys (i0 + 1)]
    have : i0 + 1 + xs.length = i0 + (xs.length + 1) := by omega
    rw [this]
    by_cases h1 : JsBatchEdit.removeDeclaratorEdit x.declarator ∈ edits
    · simp [h1]
    · by_cases h2 : JsBatchEdit.removeSeparatorEdit i0 ∈ edits
      · simp [h1, h2]
      · simp [h1, h2]

theorem applyListEdits_untouched (d : JsVariableDeclarator) (j : Nat) :
    ∀ (xs : List DeclaratorElement) (i0 : Nat),
      (∀ (k : Nat) (ek : DeclaratorElement), xs[k]? = some ek → ek.declarator ≠ d) →
      (∀ k : Nat, k < xs.length → i0 + k ≠ j) →
      applyListEdits [.removeDeclaratorEdit d, .removeSeparatorEdit j] i0 xs = xs := by
  intro xs
  induction xs with
  | nil =>
    intro i0 _ _
    rfl
  | cons x xs ih =>
    intro i0 hnd hnj
    have hx : x.declarator ≠ d := hnd 0 x (by simp)
    have hxj : i0 ≠ j := by
      have := hnj 0 (Nat.succ_pos _)
      simpa using this
    have hnd2 : ∀ (k : Nat) (ek : DeclaratorElement), xs[k]? = some ek → ek.declarator ≠ d := by
      intro k ek hk
      exact hnd (k + 1) ek (by simpa using hk)
    have hnj2 : ∀ k : Nat, k < xs.length → i0 + 1 + k ≠ j := by
      intro k hk
      have := hnj (k + 1) (Nat.succ_lt_succ hk)
      omega
    rw [applyListEdits]
    rw [if_neg (by simp [hx, hxj])]
    rw [if_neg (by simp [hxj])]
    rw [ih (i0 + 1) hnd2 hnj2]

theorem applyListEdits_match_last (d : JsVariableDeclarator) (j : Nat)
    (e : DeclaratorElement) (i0 : Nat) (hed : e.declarator = d) :
    applyListEdits [.removeDeclaratorEdit d, .removeSeparatorEdit j] i0 [e] = [] := by
  rw [applyListEdits]
  rw [if_pos (by simp [hed])]
  rfl

theorem applyListEdits_clear_comma (d : JsVariableDeclarator)
    (f : DeclaratorElement) (j : Nat) (hfd : f.declarator ≠ d) :
    applyListEdits [.removeDeclaratorEdit d, .removeSeparatorEdit j] j [f] =
      [{ f with trailingComma := false }] := by
  rw [applyListEdits]
  rw [if_neg (by simp [hfd])]
  rw [if_pos (by simp)]
  rfl

/-! ## The claims -/

/-- C1: parsing is lossless — for any token stream, the tokens of the tree
built by `parse_color_profile_at_rule` followed by the tokens left in the
parser are exactly the input tokens, in order (so concatenating the text of
every token, trivia included, reproduces the input text exactly, whatever
its validity; tokens consumed during error recovery are retained). -/
theorem parse_color_profile_at_rule_lossless (p : CssParser) :
    parsedTokens (parse_color_profile_at_rule p).1 ++
      (parse_color_profile_at_rule p).2.tokens = p.tokens ∧
    tokensText (parsedTokens (parse_color_profile_at_rule p).1) ++
      tokensText (parse_color_profile_at_rule p).2.tokens = tokensText p.tokens := by
  have main : parsedTokens (parse_color_profile_at_rule p).1 ++
      (parse_color_profile_at_rule p).2.tokens = p.tokens := by
    unfold parse_color_profile_at_rule
    by_cases hcp : is_color_profile_at_rule p
    · simp only [hcp, if_true]
      rcases htok : p.tokens with _ | ⟨kw, rest⟩
      · simp [parsedTokens, htok]
      · have hIdent := or_recover_tokens
          (parse_custom_identifier { p with tokens := rest })
          ((ParseRecovery.new .CSS_BOGUS COLOR_PROFILE_RECOVERY_SET).enable_recovery_on_line_break)
          .expectedNonCssWideKeywordIdentifier
        rw [parse_custom_identifier_tokens] at hIdent
        rcases hio : or_recover (parse_custom_identifier { p with tokens := rest })
          ((ParseRecovery.new .CSS_BOGUS COLOR_PROFILE_RECOVERY_SET).enable_recovery_on_line_break)
          .expectedNonCssWideKeywordIdentifier with ⟨io1, io2⟩
        rw [hio] at hIdent
        have hBlock := parse_or_recover_block_tokens io2
        rcases hbo : parse_or_recover_declaration_list_block io2 with ⟨bo1, bo2⟩
        rw [hbo] at hBlock
        simp only at hIdent hBlock
        cases bo1 with
        | none =>
          simp only [htok, hio, hbo, parsedTokens, Option.toList_none, Option.toList_some]
          rw [elementTokens_completeNode]
          simp only [elementsTokens, elementTokens, elementsTokens_append,
            elementsTokens_toList, List.append_nil]
          have hb2 : bo2.tokens = io2.tokens := by
            simpa [recoveredTokens] using hBlock
          simp [List.append_assoc, hb2, hIdent]
        | some blockNode =>
          simp only [htok, hio, hbo, parsedTokens, Option.toList_none, Option.toList_some]
          rw [elementTokens_completeNode]
          simp only [elementsTokens, elementTokens, elementsTokens_append,
            elementsTokens_toList, List.append_nil, recoveredTokens_some]
          have hb2 : elementTokens blockNode ++ bo2.tokens = io2.tokens := by
            simpa [recoveredTokens] using hBlock
          simp [List.append_assoc, hb2, hIdent]
    · simp only [Bool.not_eq_true] at hcp
      simp [hcp, parsedTokens]
  refine ⟨main, ?_⟩
  rw [← tokensText_append, main]

/-- C2: list repair by `remove_declarator`, for a declarator found at
index `i` of a well-formed separated declarator list (every element but
the last carries a trailing comma, declarator nodes distinct): a sole
declarator removes the entire enclosing variable statement; a non-last
declarator is removed together with its own trailing comma; a last
declarator of a multi-element list is removed and the preceding element's
trailing comma is removed instead — and in the latter two cases the
resulting declarator list is still syntactically valid. -/
theorem remove_declarator_list_repair (stmt : JsVariableStatement)
    (d : JsVariableDeclarator) (i : Nat)
    (hwf : isValidDeclaratorList stmt.declaration.declaratorList = true)
    (hi : i < stmt.declaration.declaratorList.length)
    (hd : (stmt.declaration.declaratorList[i]?).map (fun el => el.declarator) = some d)
    (huniq : ∀ j : Nat, j < stmt.declaration.declaratorList.length →
      (stmt.declaration.declaratorList[j]?).map (fun el => el.declarator) = some d → j = i) :
    (stmt.declaration.declaratorList.length = 1 →
      remove_declarator stmt d = some [.removeStatementEdit] ∧
      applyDeclaratorEdits [.removeStatementEdit] stmt = none) ∧
    (i + 1 < stmt.declaration.declaratorList.length →
      remove_declarator stmt d =
        some [.removeDeclaratorEdit d, .removeSeparatorEdit i] ∧
      ∃ stmt',
        applyDeclaratorEdits [.removeDeclaratorEdit d, .removeSeparatorEdit i] stmt
          = some stmt' ∧
        stmt'.declaration.declaratorList =
          stmt.declaration.declaratorList.take i ++
            stmt.declaration.declaratorList.drop (i + 1) ∧
        isValidDeclaratorList stmt'.declaration.declaratorList = true) ∧
    (i + 1 = stmt.declaration.declaratorList.length → 1 ≤ i →
      remove_declarator stmt d =
        some [.removeDeclaratorEdit d, .removeSeparatorEdit (i - 1)] ∧
      ∃ stmt' f, stmt.declaration.declaratorList[i - 1]? = some f ∧
        applyDeclaratorEdits [.removeDeclaratorEdit d, .removeSeparatorEdit (i - 1)] stmt
          = some stmt' ∧
        stmt'.declaration.declaratorList =
          stmt.declaration.declaratorList.take (i - 1) ++
            [{ f with trailingComma := false }] ∧
        isValidDeclaratorList stmt'.declaration.declaratorList = true) := by
  obtain ⟨e, he, hed⟩ :
      ∃ e, stmt.declaration.declaratorList[i]? = some e ∧ e.declarator = d := by
    have hg := List.getElem?_eq_getElem hi
    rw [hg] at hd
    simp only [Option.map_some'] at hd
    exact ⟨_, hg, by simpa using hd⟩
  have hnotd : ∀ (j : Nat) (ej : DeclaratorElement), j ≠ i →
      stmt.declaration.declaratorList[j]? = some ej → ej.declarator ≠ d := by
    intro j ej hj hje habs
    have hjlen : j < stmt.declaration.declaratorList.length :=
      (List.getElem?_eq_some.mp hje).1
    exact hj (huniq j hjlen (by rw [hje]; simp [habs]))
  refine ⟨?_, ?_, ?_⟩
  · intro h1
    refine ⟨?_, ?_⟩
    · unfold remove_declarator
      rw [if_pos h1]
    · unfold applyDeclaratorEdits
      rw [if_pos (by simp)]
  · intro h2
    have hcomma : e.trailingComma = true :=
      valid_comma_of_not_last _ hwf i e he h2
    have hloop := removeDeclaratorLoop_spec d stmt.declaration.declaratorList 0 none i e he hed
      (fun j ej hj hje => hnotd j ej (by omega) hje)
    rw [hcomma] at hloop
    have hlen1 : stmt.declaration.declaratorList.length ≠ 1 := by omega
    have hrd : remove_declarator stmt d =
        some [.removeDeclaratorEdit d, .removeSeparatorEdit i] := by
      unfold remove_declarator
      rw [if_neg hlen1, hloop]
      have hne : ¬ (stmt.declaration.declaratorList.length - i - 1 = 0) := by omega
      simp [hne]
    have hdecomp :
        stmt.declaration.declaratorList.take i ++
          e :: stmt.declaration.declaratorList.drop (i + 1)
        = stmt.declaration.declaratorList := by
      have h1 := List.take_append_drop i stmt.declaration.declaratorList
      have hge : stmt.declaration.declaratorList[i] = e := by
        have hg := List.getElem?_eq_getElem hi
        rw [hg] at he
        exact Option.some_inj.mp he
      have hstep : stmt.declaration.declaratorList.drop i =
          e :: stmt.declaration.declaratorList.drop (i + 1) := by
        rw [List.drop_eq_getElem_cons hi, hge]
      rw [← hstep]
      exact h1
    have htake_len : (stmt.declaration.declaratorList.take i).length = i := by
      rw [List.length_take]; omega
    have htake_nd : ∀ (k : Nat) (ek : DeclaratorElement),
        (stmt.declaration.declaratorList.take i)[k]? = some ek → ek.declarator ≠ d := by
      intro k ek hk
      rw [List.getElem?_take] at hk
      by_cases hki : k < i
      · rw [if_pos hki] at hk
        exact hnotd k ek (by omega) hk
      · rw [if_neg hki] at hk
        exact absurd hk (by simp)
    have htake_nj : ∀ k : Nat, k < (stmt.declaration.declaratorList.take i).length →
        0 + k ≠ i := by
      rw [htake_len]
      omega
    have hdrop_nd : ∀ (k : Nat) (ek : DeclaratorElement),
        (stmt.declaration.declaratorList.drop (i + 1))[k]? = some ek →
          ek.declarator ≠ d := by
      intro k ek hk
      rw [List.getElem?_drop] at hk
      exact hnotd (i + 1 + k) ek (by omega) hk
    have hdrop_nj : ∀ k : Nat,
        k < (stmt.declaration.declaratorList.drop (i + 1)).length → i + 1 + k ≠ i := by
      intro k _
      omega
    have happly : applyListEdits [.removeDeclaratorEdit d, .removeSeparatorEdit i] 0
        stmt.declaration.declaratorList =
        stmt.declaration.declaratorList.take i ++
          stmt.declaration.declaratorList.drop (i + 1) := by
      conv_lhs => rw [← hdecomp]
      rw [applyListEdits_append, htake_len]
      rw [applyListEdits_untouched d i _ 0 htake_nd htake_nj]
      congr 1
      rw [applyListEdits]
      rw [if_pos (by rw [hed]; simp)]
      have h0i : 0 + i + 1 = i + 1 := by omega
      rw [h0i]
      exact applyListEdits_untouched d i _ (i + 1) hdrop_nd hdrop_nj
    have hdropne : stmt.declaration.declaratorList.drop (i + 1) ≠ [] := by
      apply List.ne_nil_of_length_pos
      rw [List.length_drop]
      omega
    have hvalid : isValidDeclaratorList
        (stmt.declaration.declaratorList.take i ++
          stmt.declaration.declaratorList.drop (i + 1)) = true := by
      apply valid_remove_middle e _ _ hdropne
      rw [hdecomp]
      exact hwf
    refine ⟨hrd, ?_⟩
    have happd : applyDeclaratorEdits [.removeDeclaratorEdit d, .removeSeparatorEdit i] stmt =
        some { declaration :=
          { stmt.declaration with
            declaratorList := stmt.declaration.declaratorList.take i ++
              stmt.declaration.declaratorList.drop (i + 1) } } := by
      unfold applyDeclaratorEdits
      rw [if_neg (by simp), happly]
    exact ⟨_, happd, rfl, hvalid⟩
  · intro h3 h1i
    have hcomma_e : e.trailingComma = false := by
      have hlast : stmt.declaration.declaratorList.length - 1 = i := by omega
      exact valid_last_no_comma _ hwf e (by rw [hlast]; exact he)
    have hloop := removeDeclaratorLoop_spec d stmt.declaration.declaratorList 0 none i e he hed
      (fun j ej hj hje => hnotd j ej (by omega) hje)
    rw [hcomma_e] at hloop
    have hi0 : i ≠ 0 := by omega
    have him : i - 1 < stmt.declaration.declaratorList.length := by omega
    obtain ⟨f, hfe⟩ : ∃ f, stmt.declaration.declaratorList[i - 1]? = some f :=
      ⟨_, List.getElem?_eq_getElem him⟩
    have hfd : f.declarator ≠ d := hnotd (i - 1) f (by omega) hfe
    have hfcomma : f.trailingComma = true :=
      valid_comma_of_not_last _ hwf (i - 1) f hfe (by omega)
    have hlen1 : stmt.declaration.declaratorList.length ≠ 1 := by omega
    have hrd : remove_declarator stmt d =
        some [.removeDeclaratorEdit d, .removeSeparatorEdit (i - 1)] := by
      unfold remove_declarator
      rw [if_neg hlen1, hloop]
      have hz : stmt.declaration.declaratorList.length - i - 1 = 0 := by omega
      rw [if_neg hi0]
      simp [hz, hfe, hfcomma]
    have hge : stmt.declaration.declaratorList[i] = e := by
      have hg := List.getElem?_eq_getElem hi
      rw [hg] at he
      exact Option.some_inj.mp he
    have hgf : stmt.declaration.declaratorList[i - 1] = f := by
      have hg := List.getElem?_eq_getElem him
      rw [hg] at hfe
      exact Option.some_inj.mp hfe
    have hdecomp :
        stmt.declaration.declaratorList.take (i - 1) ++ [f, e]
        = stmt.declaration.declaratorList := by
      have h1 := List.take_append_drop (i - 1) stmt.declaration.declaratorList
      have hstep1 : i - 1 + 1 = i := by omega
      have hd1 : stmt.declaration.declaratorList.drop (i - 1) =
          f :: stmt.declaration.declaratorList.drop i := by
        rw [List.drop_eq_getElem_cons him, hgf, hstep1]
      have hd2 : stmt.declaration.declaratorList.drop i =
          e :: stmt.declaration.declaratorList.drop (i + 1) := by
        rw [List.drop_eq_getElem_cons hi, hge]
      have hd3 : stmt.declaration.declaratorList.drop (i + 1) = [] :=
        List.drop_eq_nil_of_le (by omega)
      rw [hd3] at hd2
      rw [hd2] at hd1
      rw [← hd1]
      exact h1
    have htake_len2 : (stmt.declaration.declaratorList.take (i - 1)).length = i - 1 := by
      rw [List.length_take]; omega
    have htake_nd2 : ∀ (k : Nat) (ek : DeclaratorElement),
        (stmt.declaration.declaratorList.take (i - 1))[k]? = some ek →
          ek.declarator ≠ d := by
      intro k ek hk
      rw [List.getElem?_take] at hk
      by_cases hki : k < i - 1
      · rw [if_pos hki] at hk
        exact hnotd k ek (by omega) hk
      · rw [if_neg hki] at hk
        exact absurd hk (by simp)
    have htake_nj2 : ∀ k : Nat,
        k < (stmt.declaration.declaratorList.take (i - 1)).length → 0 + k ≠ i - 1 := by
      rw [htake_len2]
      omega
    have happly : applyListEdits [.removeDeclaratorEdit d, .removeSeparatorEdit (i - 1)] 0
        stmt.declaration.declaratorList =
        stmt.declaration.declaratorList.take (i - 1) ++
          [{ f with trailingComma := false }] := by
      conv_lhs => rw [← hdecomp]
      rw [show ([f, e] : List DeclaratorElement) = [f] ++ [e] from rfl]
      rw [applyListEdits_append, htake_len2]
      rw [applyListEdits_untouched d (i - 1) _ 0 htake_nd2 htake_nj2]
      congr 1
      rw [applyListEdits_append]
      have h0 : 0 + (i - 1) = i - 1 := by omega
      rw [h0]
      rw [applyListEdits_clear_comma d f (i - 1) hfd]
      rw [applyListEdits_match_last d (i - 1) e _ hed]
      simp
    have hvalid : isValidDeclaratorList
        (stmt.declaration.declaratorList.take (i - 1) ++
          [{ f with trailingComma := false }]) = true := by
      apply valid_remove_last f e
      rw [hdecomp]
      exact hwf
    refine ⟨hrd, ?_⟩
    have happd : applyDeclaratorEdits
        [.removeDeclaratorEdit d, .removeSeparatorEdit (i - 1)] stmt =
        some { declaration :=
          { stmt.declaration with
            declaratorList := stmt.declaration.declaratorList.take (i - 1) ++
              [{ f with trailingComma := false }] } } := by
      unfold applyDeclaratorEdits
      rw [if_neg (by simp), happly]
    exact ⟨_, f, hfe, happd, rfl, hvalid⟩

/-- Witness for C2 at `const BAR = 1, FOO = "FOO";`, removing the last
declarator `FOO = "FOO"`. -/
theorem remove_declarator_list_repair_witness :
    remove_declarator fooLastStatement fooDeclarator =
      some [.removeDeclaratorEdit fooDeclarator, .removeSeparatorEdit 0] ∧
    ∃ stmt' f, fooLastStatement.declaration.declaratorList[0]? = some f ∧
      applyDeclaratorEdits
        [.removeDeclaratorEdit fooDeclarator, .removeSeparatorEdit 0] fooLastStatement
        = some stmt' ∧
      stmt'.declaration.declaratorList =
        fooLastStatement.declaration.declaratorList.take 0 ++
          [{ f with trailingComma := false }] ∧
      isValidDeclaratorList stmt'.declaration.declaratorList = true :=
  (remove_declarator_list_repair fooLastStatement fooDeclarator 1
    (by decide) (by decide) (by decide) (by decide)).2.2 (by decide) (by decide)

/-- C3: parsing `@color-profile 123 { }` emits exactly one diagnostic
expecting a non-CSS-wide-keyword identifier, and yields a tree whose
at-rule node is completed with the error kind `CSS_BOGUS_AT_RULE` — the
invalid `123` wrapped in a `CSS_BOGUS` child — while the declaration-list
block is still parsed as a child underneath it. -/
theorem color_profile_error_recovery_scenario :
    parse_color_profile_at_rule colorProfileErrorInput =
      (.Present (.node .CSS_BOGUS_AT_RULE
        [.tok cpKwTok,
         .node .CSS_BOGUS [.tok num123Tok],
         .node .CSS_DECLARATION_LIST_BLOCK
           [.tok openBraceTok, .node .CSS_DECLARATION_LIST [], .tok closeBraceTok]]),
       ⟨[], [.expectedNonCssWideKeywordIdentifier]⟩) := rfl

/-- C4: `NoForEach::run`, queried on a call expression, signals exactly
when the callee after omitting parentheses is a member expression whose
member name is `"forEach"` (the computed access `els['forEach'](...)`
included); `els.forEach(el => { el })` and `els['forEach'](el => { el })`
produce exactly one signal each, and an input containing no such call —
`for (const el of els) { el }` in particular — produces zero signals. -/
theorem noForEach_end_to_end :
    (∀ node : JsCallExpressionNode,
      (NoForEach_run node).isSome = true ↔
        member_name (omit_parentheses node.callee) = some "forEach") ∧
    noForEachSignalCount forEachProgram = 1 ∧
    noForEachSignalCount forEachComputedProgram = 1 ∧
    (∀ program : List JsStatement,
      (∀ c ∈ callExpressionsInStmtList program,
        member_name (omit_parentheses c.callee) ≠ some "forEach") →
      noForEachSignalCount program = 0) ∧
    noForEachSignalCount forOfProgram = 0 := by
  refine ⟨noForEach_run_isSome_iff, rfl, rfl, ?_, rfl⟩
  intro program hnone
  unfold noForEachSignalCount
  rw [List.countP_eq_zero]
  intro c hc
  rcases h : NoForEach_run c with _ | u
  · simp [h]
  · have hsome : (NoForEach_run c).isSome = true := by rw [h]; rfl
    exact absurd ((noForEach_run_isSome_iff c).mp hsome) (hnone c hc)

/-- C5: `all_references` yields the matching identifier-expression
occurrences in source order (strictly increasing source positions), and
for `const FOO = "FOO"; console.log(FOO); f(FOO);` the reference list of
`FOO` has length 2 and lists the two uses in source order. -/
theorem all_references_source_order :
    (∀ (bindingName : String) (program : List JsStatement),
      List.Chain' (fun a b => a.position < b.position)
        (all_references bindingName program)) ∧
    all_references "FOO" shoutyProgram =
      [⟨1, some .identifierExpressionParent⟩, ⟨3, some .identifierExpressionParent⟩] ∧
    (all_references "FOO" shoutyProgram).length = 2 := by
  refine ⟨?_, rfl, rfl⟩
  intro bindingName program
  exact collectRefs_chain bindingName (stmtListOccurrences program) 0

/-- C6: when a rule's `run` step fails a contextual lookup it produces no
signal rather than any failure: `NoForEach::run` yields `none` or a unit
signal and `none` exactly when the callee is not a member expression named
`"forEach"`; `NoShoutyConstants::run` yields `none` exactly when the query
is not a declarator of a `const` declaration whose initializer is the
matching string literal. -/
theorem run_no_signal_on_lookup_miss :
    (∀ node : JsCallExpressionNode,
      NoForEach_run node = none ∨ NoForEach_run node = some ()) ∧
    (∀ node : JsCallExpressionNode,
      NoForEach_run node = none ↔
        ¬ ∃ m, asMemberExpr (omit_parentheses node.callee) = some m ∧
            member_name m = some "forEach") ∧
    (∀ (program : List JsStatement) (si di : Nat),
      NoShoutyConstants_run program si di = none ↔
        ¬ ∃ vs e, program[si]? = some (.varStmt vs) ∧
            vs.declaration.declaratorList[di]? = some e ∧
            vs.declaration.is_const = true ∧
            (is_id_and_string_literal_inner_text_equal e.declarator).isSome = true) := by
  refine ⟨?_, ?_, ?_⟩
  · intro node
    rcases h : NoForEach_run node with _ | ⟨⟩
    · exact .inl rfl
    · exact .inr rfl
  · intro node
    unfold NoForEach_run
    rcases hm : asMemberExpr (omit_parentheses node.callee) with _ | m
    · simp [hm]
    · rcases hn : member_name m with _ | s
      · simp [hm, hn]
      · by_cases hs : s = "forEach"
        · subst hs
          simp [hm, hn]
        · simp [hm, hn, hs]
  · intro program si di
    unfold NoShoutyConstants_run
    rcases h1 : program[si]? with _ | stmt
    · simp
    · cases stmt with
      | varStmt vs =>
        rcases h2 : vs.declaration.declaratorList[di]? with _ | e
        · simp [h2]
        · by_cases h3 : vs.declaration.is_const
          · rcases h4 : is_id_and_string_literal_inner_text_equal e.declarator with _ | ⟨b, lit⟩
            · simp [h2, h3, h4]
            · simp [h2, h3, h4]
          · simp [h2, h3]
      | exprStmt e => simp
      | forOfConst n it body => simp
      | exportNamedShorthand ns => simp

/-- C7: at a cursor that does not stand at a `color_profile` token,
`parse_color_profile_at_rule` returns `Absent` and leaves the parser state
completely unchanged — no token consumed, no node built, no diagnostic
emitted — so the caller can try alternative constructs. -/
theorem parse_color_profile_absent_no_effect (p : CssParser)
    (h : is_color_profile_at_rule p = false) :
    parse_color_profile_at_rule p = (.Absent, p) := by
  unfold parse_color_profile_at_rule
  simp [h]

/-- Witness for C7 at a parser standing at an identifier token. -/
theorem parse_color_profile_absent_no_effect_witness :
    is_color_profile_at_rule notColorProfileInput = false ∧
    parse_color_profile_at_rule notColorProfileInput = (.Absent, notColorProfileInput) :=
  ⟨rfl, parse_color_profile_absent_no_effect notColorProfileInput rfl⟩

/-- C8: one invocation of the recovery protocol either returns failure
with the parser untouched, or consumes at least one token — recovery never
loops without making progress. -/
theorem recovery_makes_progress (r : ParseRecovery) (p : CssParser) :
    ((r.recover p).1 = none ∧ (r.recover p).2 = p) ∨
    (∃ e, (r.recover p).1 = some e ∧
      (r.recover p).2.tokens.length < p.tokens.length) := by
  have happ := recoveryConsume_append r p.tokens
  unfold ParseRecovery.recover
  rcases hc : recoveryConsume r p.tokens with ⟨c, rest⟩
  rw [hc] at happ
  cases c with
  | nil => left; simp
  | cons t ts =>
    right
    refine ⟨_, rfl, ?_⟩
    have : (t :: ts).length + rest.length = p.tokens.length := by
      rw [← happ]; simp [List.length_append]; omega
    simp at this ⊢
    omega

/-- C9: `to_format_element` on a `TsTypeofType` always returns `Ok` of the
verbatim element for the node's syntax, and any element it returns renders
exactly the node's original text. -/
theorem typeof_type_formats_verbatim (n : TsTypeofType) :
    to_format_element n = Except.ok (format_verbatim n.syntaxText) ∧
    ∀ e, to_format_element n = Except.ok e → formatElementText e = n.syntaxText := by
  refine ⟨rfl, ?_⟩
  intro e he
  cases he
  rfl

/-- C10: `NoShoutyConstants::action` returns `none` — proposing no fix,
while the diagnostic is still produced — exactly when some collected
reference's parent is absent or is not a `JsIdentifierExpression`; a fix
is produced only when every reference can be replaced. -/
theorem action_requires_replaceable_references (stmt : JsVariableStatement)
    (declarator : JsVariableDeclarator) (state : ShoutyState) :
    (NoShoutyConstants_action stmt declarator state = none ↔
      ∃ r ∈ state.references,
        r.parentKind ≠ some RefParentKind.identifierExpressionParent) ∧
    (NoShoutyConstants_diagnostic state).isSome = true := by
  constructor
  · unfold NoShoutyConstants_action
    rcases h : collectReplacementEdits state.literalText state.references with _ | es
    · simp only [h, Option.bind_none, Option.bind]
      have := (collectReplacementEdits_none_iff state.literalText state.references).mp h
      simp only [referenceReplacementEdit_none_iff] at this
      simpa using this
    · simp only [h, Option.bind_some, Option.bind]
      constructor
      · intro hx
        exact absurd hx (by simp)
      · rintro ⟨r, hr, hpk⟩
        have : collectReplacementEdits state.literalText state.references = none :=
          (collectReplacementEdits_none_iff _ _).mpr
            ⟨r, hr, (referenceReplacementEdit_none_iff _ _).mpr hpk⟩
        rw [h] at this
        exact Option.noConfusion this
  · rfl

end Biome
